import Mathlib

/-!
# Multi-perturbation Shapley value Analysis (MSA): a shallow embedding

A shallow embedding of the MSA estimation core (the `msapy.msa` module:
`make_permutation_space`, `make_combination_space`, `make_complement_space`,
`take_contributions`, `make_shapley_values`, `interface`) together with the
`mutual_inhibition` objective function from the `brain modes` example
notebook.

Players are modelled as natural numbers, coalitions as `Finset ℕ`,
permutations and complements as `List ℕ` (ordered), and objective values as
rationals.  The implementation module itself is not part of the shipped
sources, so each estimation-core definition is modelled from the spec, as
marked in its doc comment.
-/

namespace MSA

/-- Errors of the estimation core.  Modelled from the spec: the error
taxonomy of the orchestrator (`InvalidInput` raised before sampling). -/
inductive MSAError where
  | InvalidInput
  deriving DecidableEq, Repr

/-- First-match lookup in an association list, the shallow embedding of a
Python `dict` access that returns `None` on a missing key. -/
def dictGet {α β : Type} [DecidableEq α] (k : α) : List (α × β) → Option β
  | [] => none
  | (k2, v) :: rest => if k2 = k then some v else dictGet k rest

/-- A linear congruential step, the run-local pseudo-random source.
Modelled from the spec: a deterministic, explicitly seeded, run-local
random source (`make_permutation_space` is missing from the sources). -/
def lcg (s : ℕ) : ℕ := (6364136223846793005 * s + 1442695040888963407) % 2 ^ 64

/-- One Fisher-Yates-style shuffle pass: repeatedly draw a pseudo-random
index into the remaining players and move that player to the output.
Modelled from the spec: the uniformly-random permutation draw of the
Permutation Sampler (missing from the sources).  The first argument is
fuel, instantiated with the list length. -/
def shuffleAux : ℕ → ℕ → List ℕ → List ℕ × ℕ
  | 0, s, _ => ([], s)
  | fuel + 1, s, l =>
    match l with
    | [] => ([], s)
    | a :: rest =>
      let s2 := lcg s
      let x := (a :: rest).getD (s2 % (a :: rest).length) 0
      let r := shuffleAux fuel s2 ((a :: rest).erase x)
      (x :: r.1, r.2)

/-- Shuffle a list of players with the given random state, returning the
shuffled list and the advanced state. -/
def shuffle (s : ℕ) (l : List ℕ) : List ℕ × ℕ := shuffleAux l.length s l

/-- Draw `k` permutations in sequence, threading the random state.
Modelled from the spec: the Permutation Sampler's sample loop. -/
def permSampleAux : ℕ → ℕ → List ℕ → List (List ℕ)
  | 0, _, _ => []
  | k + 1, s, l =>
    let r := shuffle s l
    r.1 :: permSampleAux k r.2 l

/-- `make_permutation_space`.  Modelled from the spec: given a player set
and a requested count, produce that many seeded pseudo-random permutations
of the player set; fail with `InvalidInput` (before any sampling) when the
player set is empty, the count is non-positive, or the player set contains
duplicate identities. -/
def make_permutation_space (n_permutations : ℕ) (elements : List ℕ)
    (seed : ℕ) : Except MSAError (List (List ℕ)) :=
  if elements = [] ∨ n_permutations < 1 ∨ ¬ elements.Nodup then
    Except.error MSAError.InvalidInput
  else
    Except.ok (permSampleAux n_permutations seed elements)

/-- The `n+1` nested prefix coalitions of one permutation, from the empty
prefix to the full set. -/
def prefixCoalitions (p : List ℕ) : List (Finset ℕ) :=
  (List.range (p.length + 1)).map (fun i => (p.take i).toFinset)

/-- `make_combination_space`.  Modelled from the spec: collect every prefix
coalition of every sampled permutation, inserting each coalition only if
not already present (an insertion-ordered deduplicated collection, the
`OrderedSet` of the sources). -/
def make_combination_space (permutation_space : List (List ℕ)) :
    List (Finset ℕ) :=
  (permutation_space.flatMap prefixCoalitions).dedup

/-- The complement of one coalition: the players of the canonical player
order that are not in the coalition, in canonical order. -/
def complement (elements : List ℕ) (C : Finset ℕ) : List ℕ :=
  elements.filter (fun e => e ∉ C)

/-- `make_complement_space`.  Modelled from the spec: map each coalition of
the combination space to its complement in the canonical player order. -/
def make_complement_space (combination_space : List (Finset ℕ))
    (elements : List ℕ) : List (List ℕ) :=
  combination_space.map (fun C => complement elements C)

/-- `take_contributions` (sequential mode).  Modelled from the spec: walk
the paired coalition/complement sequence, invoke the objective function
once per entry, and record the value keyed both by coalition
(`contributions`) and by complement (`lesion_effects`).  The third
component counts the objective-function invocations. -/
def take_contributions (combination_space : List (Finset ℕ))
    (complement_space : List (List ℕ)) (f : List ℕ → ℚ) :
    List (Finset ℕ × ℚ) × List (List ℕ × ℚ) × ℕ :=
  match combination_space, complement_space with
  | C :: cs, comp :: comps =>
    let v := f comp
    let r := take_contributions cs comps f
    ((C, v) :: r.1, (comp, v) :: r.2.1, r.2.2 + 1)
  | _, _ => ([], [], 0)

/-- The contribution table as a total lookup function over coalitions. -/
def tblOf (contributions : List (Finset ℕ × ℚ)) : Finset ℕ → ℚ :=
  fun C => (dictGet C contributions).getD 0

/-- The Shapley integration pass over one permutation: maintain a running
coalition, and for each player record the marginal
`Table[after] - Table[before]`.  Modelled from the spec: the Shapley
Aggregator's per-permutation reconstruction. -/
def shapleyScan (tbl : Finset ℕ → ℚ) : Finset ℕ → List ℕ → List (ℕ × ℚ)
  | _, [] => []
  | running, e :: rest =>
    (e, tbl (insert e running) - tbl running) ::
      shapleyScan tbl (insert e running) rest

/-- `make_shapley_values`.  Modelled from the spec: one row per sampled
permutation, each row holding the recorded (player, marginal) pairs. -/
def make_shapley_values (contributions : List (Finset ℕ × ℚ))
    (permutation_space : List (List ℕ)) : List (List (ℕ × ℚ)) :=
  permutation_space.map (fun p => shapleyScan (tblOf contributions) ∅ p)

/-- One player's column of the Shapley table: every marginal recorded for
that player, row by row. -/
def shapleyColumn (x : ℕ) (table : List (List (ℕ × ℚ))) : List ℚ :=
  table.flatMap (fun row => (row.filter (fun q => q.1 = x)).map Prod.snd)

/-- A player's Shapley value estimate: the arithmetic mean of that
player's column of the Shapley table. -/
def shapleyValue (x : ℕ) (table : List (List (ℕ × ℚ))) : ℚ :=
  (shapleyColumn x table).sum / ((shapleyColumn x table).length : ℚ)

/-- Execution mode of the Contribution Evaluator.  Modelled from the spec:
sequential mode evaluates the combination space in order; pooled mode
abstracts the worker pool by the order in which units of work
(coalitions) are dispatched and their results gathered, with results
re-associated to coalitions by key, never by arrival order. -/
inductive Mode where
  | sequential
  | pooled (dispatch : List (Finset ℕ))

/-- Run the Contribution Evaluator in the chosen mode, producing the
contributions and lesion-effects tables.  Modelled from the spec:
pooled mode computes the same unit of work per dispatched coalition and
gathers the results keyed by coalition identity. -/
def runContributions (mode : Mode) (elements : List ℕ)
    (combination_space : List (Finset ℕ))
    (complement_space : List (List ℕ)) (f : List ℕ → ℚ) :
    List (Finset ℕ × ℚ) × List (List ℕ × ℚ) :=
  match mode with
  | Mode.sequential =>
    let r := take_contributions combination_space complement_space f
    (r.1, r.2.1)
  | Mode.pooled dispatch =>
    let gathered := dispatch.map (fun C => (C, f (complement elements C)))
    (gathered, gathered.map (fun q => (complement elements q.1, q.2)))

/-- The result bundle of one estimation run. -/
structure MSAResult where
  shapley_table : List (List (ℕ × ℚ))
  shapley_values : List (ℕ × ℚ)
  contributions : List (Finset ℕ × ℚ)
  lesion_effects : List (List ℕ × ℚ)
  deriving DecidableEq

/-- The extractor-to-aggregator pipeline on one permutation sample: the
contribution tables produced by the chosen evaluation mode. -/
def pipelineTables (mode : Mode) (elements : List ℕ)
    (sample : List (List ℕ)) (f : List ℕ → ℚ) :
    List (Finset ℕ × ℚ) × List (List ℕ × ℚ) :=
  runContributions mode elements (make_combination_space sample)
    (make_complement_space (make_combination_space sample) elements) f

/-- The full result bundle computed from one permutation sample. -/
def pipelineResult (mode : Mode) (elements : List ℕ)
    (sample : List (List ℕ)) (f : List ℕ → ℚ) : MSAResult :=
  { shapley_table :=
      make_shapley_values (pipelineTables mode elements sample f).1 sample
    shapley_values := elements.map (fun x =>
      (x, shapleyValue x
        (make_shapley_values (pipelineTables mode elements sample f).1
          sample)))
    contributions := (pipelineTables mode elements sample f).1
    lesion_effects := (pipelineTables mode elements sample f).2 }

/-- `interface`.  Modelled from the spec: the orchestrator sequences
sampler, extractor, deriver, evaluator and aggregator, failing fast on an
invalid input, and returns the Shapley table, per-player Shapley value
estimates, and both contribution tables. -/
def interface (mode : Mode) (n_permutations : ℕ) (elements : List ℕ)
    (f : List ℕ → ℚ) (seed : ℕ) : Except MSAError MSAResult :=
  match make_permutation_space n_permutations elements seed with
  | Except.error e => Except.error e
  | Except.ok sample => Except.ok (pipelineResult mode elements sample f)

/-- The `mutual_inhibition` objective function of the `brain modes`
example notebook, with region `a` as player `0` and region `b` as
player `1`: lesioning either of the two regions alone destroys
performance, lesioning both paradoxically restores it. -/
def mutual_inhibition (complements : List ℕ) : ℚ :=
  if 0 ∈ complements ∧ 1 ∈ complements then 100
  else if 0 ∈ complements then 0
  else if 1 ∈ complements then 0
  else 100

/-! ## Association-list lookup lemmas -/

theorem dictGet_eq_none_iff {α β : Type} [DecidableEq α] (k : α)
    (l : List (α × β)) : dictGet k l = none ↔ k ∉ l.map Prod.fst := by
  induction l with
  | nil => simp [dictGet]
  | cons q rest ih =>
    by_cases hq : q.1 = k
    · simp [dictGet, if_pos hq, hq]
    · simp only [dictGet, if_neg hq, ih, List.map_cons, List.mem_cons,
        not_or]
      constructor
      · intro h
        exact ⟨fun he => hq he.symm, h⟩
      · intro h
        exact h.2

theorem dictGet_eq_some_of_mem {α β : Type} [DecidableEq α] {k : α}
    {v : β} {l : List (α × β)} (hnd : (l.map Prod.fst).Nodup)
    (hm : (k, v) ∈ l) : dictGet k l = some v := by
  induction l with
  | nil => simp at hm
  | cons q rest ih =>
    simp only [List.map_cons, List.nodup_cons] at hnd
    rcases List.mem_cons.mp hm with h | h
    · subst h; simp [dictGet]
    · have hk : q.1 ≠ k := by
        intro he
        exact hnd.1 (he ▸ List.mem_map_of_mem Prod.fst h)
      simp only [dictGet, if_neg hk]
      exact ih hnd.2 h

theorem mem_of_dictGet_eq_some {α β : Type} [DecidableEq α] {k : α}
    {v : β} {l : List (α × β)} (h : dictGet k l = some v) : (k, v) ∈ l := by
  induction l with
  | nil => simp [dictGet] at h
  | cons q rest ih =>
    by_cases hq : q.1 = k
    · simp only [dictGet, if_pos hq] at h
      obtain ⟨v2⟩ := q
      simp only at hq
      obtain rfl := hq
      obtain rfl := Option.some_injective _ h
      exact List.mem_cons_self _ _
    · simp only [dictGet, if_neg hq] at h
      exact List.mem_cons_of_mem _ (ih h)

theorem dictGet_congr_perm {α β : Type} [DecidableEq α]
    {l1 l2 : List (α × β)} (hp : l1.Perm l2)
    (hnd : (l1.map Prod.fst).Nodup) (k : α) :
    dictGet k l1 = dictGet k l2 := by
  cases h : dictGet k l1 with
  | none =>
    rw [eq_comm, dictGet_eq_none_iff]
    rw [dictGet_eq_none_iff] at h
    intro hk
    exact h ((hp.map Prod.fst).mem_iff.mpr hk)
  | some v =>
    rw [eq_comm]
    exact dictGet_eq_some_of_mem ((hp.map Prod.fst).nodup_iff.mp hnd)
      (hp.subset (mem_of_dictGet_eq_some h))

/-! ## Permutation sampler lemmas -/

theorem shuffleAux_perm :
    ∀ (fuel s : ℕ) (l : List ℕ), l.length ≤ fuel →
      (shuffleAux fuel s l).1.Perm l := by
  intro fuel
  induction fuel with
  | zero =>
    intro s l hl
    have : l = [] := List.eq_nil_of_length_eq_zero (Nat.le_zero.mp hl)
    subst this
    simp [shuffleAux]
  | succ n ih =>
    intro s l hl
    match l with
    | [] => simp [shuffleAux]
    | a :: rest =>
      have hxm : (a :: rest).getD (lcg s % (a :: rest).length) 0
          ∈ a :: rest := by
        rw [List.getD_eq_getElem _ _ (Nat.mod_lt _ (by simp))]
        exact List.getElem_mem _
      have herase : (((a :: rest)).erase
          ((a :: rest).getD (lcg s % (a :: rest).length) 0)).length ≤ n := by
        rw [List.length_erase_of_mem hxm]
        simpa using Nat.le_of_succ_le_succ hl
      have htail := ih (lcg s) (((a :: rest)).erase
        ((a :: rest).getD (lcg s % (a :: rest).length) 0)) herase
      exact ((htail.cons _).trans (List.perm_cons_erase hxm).symm)

theorem permSampleAux_mem :
    ∀ (k s : ℕ) (l : List ℕ) (p : List ℕ),
      p ∈ permSampleAux k s l → p.Perm l := by
  intro k
  induction k with
  | zero => intro s l p hp; simp [permSampleAux] at hp
  | succ n ih =>
    intro s l p hp
    simp only [permSampleAux, List.mem_cons] at hp
    rcases hp with hp | hp
    · subst hp
      exact shuffleAux_perm _ _ _ le_rfl
    · exact ih _ _ _ hp

theorem make_permutation_space_mem {n seed : ℕ} {elements : List ℕ}
    {sample : List (List ℕ)}
    (h : make_permutation_space n elements seed = Except.ok sample) :
    ∀ p ∈ sample, p.Perm elements := by
  unfold make_permutation_space at h
  split at h
  · exact absurd h (by simp)
  · obtain rfl := Except.ok.inj h
    intro p hp
    exact permSampleAux_mem _ _ _ _ hp

/-! ## Combination space lemmas -/

theorem mem_make_combination_space {ps : List (List ℕ)} {C : Finset ℕ} :
    C ∈ make_combination_space ps ↔
      ∃ p ∈ ps, ∃ i ≤ p.length, C = (p.take i).toFinset := by
  simp only [make_combination_space, List.mem_dedup, List.mem_flatMap,
    prefixCoalitions, List.mem_map, List.mem_range, Nat.lt_succ_iff]
  constructor
  · rintro ⟨p, hp, i, hi, rfl⟩
    exact ⟨p, hp, i, hi, rfl⟩
  · rintro ⟨p, hp, i, hi, rfl⟩
    exact ⟨p, hp, i, hi, rfl⟩

theorem make_combination_space_nodup (ps : List (List ℕ)) :
    (make_combination_space ps).Nodup :=
  List.nodup_dedup _

theorem make_combination_space_subset {ps : List (List ℕ)}
    {elements : List ℕ} (hs : ∀ p ∈ ps, p.Perm elements) :
    ∀ C ∈ make_combination_space ps, C ⊆ elements.toFinset := by
  intro C hC
  obtain ⟨p, hp, i, _, rfl⟩ := mem_make_combination_space.mp hC
  intro x hx
  rw [List.mem_toFinset] at hx ⊢
  exact (hs p hp).subset (List.take_subset i p hx)

/-! ## Complement lemmas -/

theorem complement_empty (elements : List ℕ) :
    complement elements ∅ = elements := by
  simp [complement]

theorem complement_full (elements : List ℕ) :
    complement elements elements.toFinset = [] := by
  simp only [complement, List.filter_eq_nil_iff]
  intro a ha
  simp [ha]

theorem complement_toFinset (elements : List ℕ) (C : Finset ℕ) :
    (complement elements C).toFinset = elements.toFinset \ C := by
  ext x
  simp only [complement, List.mem_toFinset, List.mem_filter,
    Finset.mem_sdiff, decide_eq_true_eq]

theorem complement_inj_on {elements : List ℕ} {C1 C2 : Finset ℕ}
    (h1 : C1 ⊆ elements.toFinset) (h2 : C2 ⊆ elements.toFinset)
    (heq : complement elements C1 = complement elements C2) : C1 = C2 := by
  ext x
  by_cases hx : x ∈ elements
  · have m1 : x ∈ complement elements C1 ↔ x ∉ C1 := by
      simp [complement, List.mem_filter, hx]
    have m2 : x ∈ complement elements C2 ↔ x ∉ C2 := by
      simp [complement, List.mem_filter, hx]
    rw [heq] at m1
    exact not_iff_not.mp (m1.symm.trans m2)
  · constructor
    · intro hc1
      exact absurd (List.mem_toFinset.mp (h1 hc1)) hx
    · intro hc2
      exact absurd (List.mem_toFinset.mp (h2 hc2)) hx

/-! ## Contribution evaluator lemmas -/

theorem take_contributions_eq (f : List ℕ → ℚ) (g : Finset ℕ → List ℕ) :
    ∀ space : List (Finset ℕ),
      take_contributions space (space.map g) f =
        (space.map (fun C => (C, f (g C))),
         space.map (fun C => (g C, f (g C))),
         space.length) := by
  intro space
  induction space with
  | nil => rfl
  | cons C cs ih => simp [take_contributions, ih]

/-! ## Shapley aggregation lemmas -/

theorem shapleyScan_keys (tbl : Finset ℕ → ℚ) :
    ∀ (p : List ℕ) (S : Finset ℕ),
      (shapleyScan tbl S p).map Prod.fst = p := by
  intro p
  induction p with
  | nil => intro S; rfl
  | cons e rest ih => intro S; simp [shapleyScan, ih]

theorem shapleyScan_dictGet (tbl : Finset ℕ → ℚ) :
    ∀ (p : List ℕ) (S : Finset ℕ), p.Nodup →
      ∀ i, (h : i < p.length) →
        dictGet (p.get ⟨i, h⟩) (shapleyScan tbl S p) =
          some (tbl (S ∪ (p.take (i + 1)).toFinset) -
            tbl (S ∪ (p.take i).toFinset)) := by
  intro p
  induction p with
  | nil => intro S hnd i h; simp at h
  | cons e rest ih =>
    intro S hnd i h
    rw [List.nodup_cons] at hnd
    match i with
    | 0 =>
      simp [shapleyScan, dictGet, Finset.union_insert, Finset.insert_eq,
        Finset.union_comm]
    | j + 1 =>
      have hj : j < rest.length := Nat.lt_of_succ_lt_succ h
      have hget : (e :: rest).get ⟨j + 1, h⟩ = rest.get ⟨j, hj⟩ := rfl
      have hne : e ≠ rest.get ⟨j, hj⟩ := by
        intro he
        exact hnd.1 (he ▸ rest.get_mem j hj)
      rw [hget, shapleyScan, dictGet, if_neg hne, ih (insert e S) hnd.2 j hj]
      simp [List.take_succ_cons, Finset.union_insert, Finset.insert_union]

theorem filter_key_eq_nil {α β : Type} [DecidableEq α] {l : List (α × β)}
    {x : α} (hx : x ∉ l.map Prod.fst) :
    l.filter (fun q => q.1 = x) = [] := by
  rw [List.filter_eq_nil_iff]
  intro q hq
  simp only [decide_eq_true_eq]
  intro he
  exact hx (he ▸ List.mem_map_of_mem Prod.fst hq)

theorem filter_key_of_nodup {α β : Type} [DecidableEq α] :
    ∀ (l : List (α × β)), (l.map Prod.fst).Nodup → ∀ x ∈ l.map Prod.fst,
      ∃ v, l.filter (fun q => q.1 = x) = [(x, v)] ∧ dictGet x l = some v := by
  intro l
  induction l with
  | nil => intro _ x hx; simp at hx
  | cons q rest ih =>
    intro hnd x hx
    rw [List.map_cons, List.nodup_cons] at hnd
    by_cases hq : q.1 = x
    · refine ⟨q.2, ?_, ?_⟩
      · have hxr : x ∉ rest.map Prod.fst := hq ▸ hnd.1
        rw [List.filter_cons_of_pos (by simp [hq]), filter_key_eq_nil hxr]
        obtain ⟨k, v⟩ := q
        simp only at hq
        rw [hq]
      · simp [dictGet, if_pos hq]
    · have hxr : x ∈ rest.map Prod.fst := by
        rcases List.mem_cons.mp hx with h | h
        · exact absurd h.symm hq
        · exact h
      obtain ⟨v, hf, hg⟩ := ih hnd.2 x hxr
      refine ⟨v, ?_, ?_⟩
      · rw [List.filter_cons_of_neg (by simp [hq]), hf]
      · rw [dictGet, if_neg hq, hg]

theorem flatMap_singleton_eq_map {α β : Type} (f : α → β) :
    ∀ l : List α, (l.flatMap (fun a => [f a])) = l.map f := by
  intro l
  induction l with
  | nil => rfl
  | cons a rest ih => simp [ih]

theorem row_filter_map_snd (tbl : Finset ℕ → ℚ) {x : ℕ} {p : List ℕ}
    (hp : p.Nodup) (hx : x ∈ p) :
    ((shapleyScan tbl ∅ p).filter (fun q => q.1 = x)).map Prod.snd =
      [(dictGet x (shapleyScan tbl ∅ p)).getD 0] := by
  obtain ⟨v, hf, hg⟩ := filter_key_of_nodup (shapleyScan tbl ∅ p)
    (by rw [shapleyScan_keys]; exact hp) x
    (by rw [shapleyScan_keys]; exact hx)
  rw [hf, hg]
  rfl

theorem shapleyColumn_cons (x : ℕ) (row : List (ℕ × ℚ))
    (rows : List (List (ℕ × ℚ))) :
    shapleyColumn x (row :: rows) =
      ((row.filter (fun q => q.1 = x)).map Prod.snd) ++
        shapleyColumn x rows := by
  simp [shapleyColumn]

theorem shapleyColumn_eq_map (contributions : List (Finset ℕ × ℚ)) (x : ℕ)
    {elements : List ℕ} (hnd : elements.Nodup) (hx : x ∈ elements) :
    ∀ sample : List (List ℕ), (∀ p ∈ sample, p.Perm elements) →
      shapleyColumn x (make_shapley_values contributions sample) =
        (make_shapley_values contributions sample).map
          (fun row => (dictGet x row).getD 0) := by
  intro sample
  induction sample with
  | nil => intro _; rfl
  | cons p ps ih =>
    intro hs
    have hp : p.Perm elements := hs p (List.mem_cons_self _ _)
    have hpnd : p.Nodup := hp.nodup_iff.mpr hnd
    have hxp : x ∈ p := hp.mem_iff.mpr hx
    have hrow : make_shapley_values contributions (p :: ps) =
        shapleyScan (tblOf contributions) ∅ p ::
          make_shapley_values contributions ps := rfl
    rw [hrow, shapleyColumn_cons,
      row_filter_map_snd (tblOf contributions) hpnd hxp, List.map_cons,
      List.singleton_append]
    congr 1
    exact ih (fun q hq => hs q (List.mem_cons_of_mem _ hq))

theorem toFinset_dedup_list {α : Type} [DecidableEq α] (l : List α) :
    l.dedup.toFinset = l.toFinset :=
  List.toFinset.ext (fun x => by simp [List.mem_dedup])

theorem make_combination_space_keys (elements : List ℕ)
    (sample : List (List ℕ)) (f : List ℕ → ℚ) :
    (take_contributions (make_combination_space sample)
        (make_complement_space (make_combination_space sample) elements)
        f).1.map Prod.fst = make_combination_space sample := by
  rw [show make_complement_space (make_combination_space sample) elements =
      (make_combination_space sample).map
        (fun C => complement elements C) from rfl,
    take_contributions_eq]
  simp [Function.comp_def]

theorem dictGet_take_contributions (elements : List ℕ)
    (sample : List (List ℕ)) (f : List ℕ → ℚ) {C : Finset ℕ}
    (hC : C ∈ make_combination_space sample) :
    dictGet C (take_contributions (make_combination_space sample)
        (make_complement_space (make_combination_space sample) elements)
        f).1 = some (f (complement elements C)) := by
  apply dictGet_eq_some_of_mem
  · rw [make_combination_space_keys]
    exact make_combination_space_nodup sample
  · rw [show make_complement_space (make_combination_space sample)
        elements = (make_combination_space sample).map
          (fun C => complement elements C) from rfl,
      take_contributions_eq]
    exact List.mem_map_of_mem _ hC

theorem mem_shapleyScan_snd (tbl : Finset ℕ → ℚ) :
    ∀ (p : List ℕ) (S : Finset ℕ), ∀ q ∈ shapleyScan tbl S p,
      ∃ i, i < p.length ∧
        q.2 = tbl (S ∪ (p.take (i + 1)).toFinset) -
          tbl (S ∪ (p.take i).toFinset) := by
  intro p
  induction p with
  | nil => intro S q hq; simp [shapleyScan] at hq
  | cons e rest ih =>
    intro S q hq
    rw [shapleyScan, List.mem_cons] at hq
    rcases hq with hq | hq
    · refine ⟨0, by simp, ?_⟩
      subst hq
      simp [Finset.union_insert, Finset.insert_eq, Finset.union_comm]
    · obtain ⟨i, hi, hq2⟩ := ih (insert e S) q hq
      refine ⟨i + 1, by simpa using Nat.succ_lt_succ hi, ?_⟩
      rw [hq2]
      simp [List.take_succ_cons, Finset.union_insert, Finset.insert_union]

theorem make_permutation_space_ok {n : ℕ} (hn : 1 ≤ n)
    {elements : List ℕ} (hne : elements ≠ []) (hnd : elements.Nodup)
    (seed : ℕ) :
    make_permutation_space n elements seed =
      Except.ok (permSampleAux n seed elements) := by
  unfold make_permutation_space
  rw [if_neg]
  push_neg
  exact ⟨hne, hn, hnd⟩

theorem interface_eq_ok (mode : Mode) (f : List ℕ → ℚ)
    {n seed : ℕ} {elements : List ℕ} {sample : List (List ℕ)}
    (h : make_permutation_space n elements seed = Except.ok sample) :
    interface mode n elements f seed =
      Except.ok (pipelineResult mode elements sample f) := by
  unfold interface
  rw [h]

theorem mem_shapleyColumn {x : ℕ} {table : List (List (ℕ × ℚ))} {v : ℚ}
    (hv : v ∈ shapleyColumn x table) :
    ∃ row ∈ table, ∃ q ∈ row, q.2 = v := by
  rw [shapleyColumn, List.mem_flatMap] at hv
  obtain ⟨row, hrow, hv2⟩ := hv
  rw [List.mem_map] at hv2
  obtain ⟨q, hq, hq2⟩ := hv2
  exact ⟨row, hrow, q, List.mem_of_mem_filter hq, hq2⟩

theorem shapleyValue_eq_zero {x : ℕ} {table : List (List (ℕ × ℚ))}
    (h : ∀ row ∈ table, ∀ q ∈ row, (q : ℕ × ℚ).2 = 0) :
    shapleyValue x table = 0 := by
  rw [shapleyValue, List.sum_eq_zero, zero_div]
  intro v hv
  obtain ⟨row, hrow, q, hq, hq2⟩ := mem_shapleyColumn hv
  rw [← hq2]
  exact h row hrow q hq

theorem pipeline_marginals_zero (c : ℚ) (elements : List ℕ)
    (sample : List (List ℕ)) :
    ∀ row ∈ make_shapley_values
        (pipelineTables Mode.sequential elements sample (fun _ => c)).1
        sample,
      ∀ q ∈ row, (q : ℕ × ℚ).2 = 0 := by
  intro row hrow q hq
  rw [make_shapley_values, List.mem_map] at hrow
  obtain ⟨p, hp, hrow2⟩ := hrow
  subst hrow2
  obtain ⟨i, hi, hq2⟩ := mem_shapleyScan_snd _ p ∅ q hq
  rw [Finset.empty_union, Finset.empty_union] at hq2
  have h1 : (p.take (i + 1)).toFinset ∈ make_combination_space sample :=
    mem_make_combination_space.mpr ⟨p, hp, i + 1, hi, rfl⟩
  have h2 : (p.take i).toFinset ∈ make_combination_space sample :=
    mem_make_combination_space.mpr ⟨p, hp, i, Nat.le_of_lt hi, rfl⟩
  have htbl : ∀ C ∈ make_combination_space sample,
      tblOf (pipelineTables Mode.sequential elements sample
        (fun _ => c)).1 C = c := by
    intro C hC
    rw [tblOf, show (pipelineTables Mode.sequential elements sample
        (fun _ => c)).1 = (take_contributions
          (make_combination_space sample)
          (make_complement_space (make_combination_space sample) elements)
          (fun _ => c)).1 from rfl,
      dictGet_take_contributions elements sample (fun _ => c) hC]
    rfl
  rw [hq2, htbl _ h1, htbl _ h2, sub_self]

/-! ## Claim theorems -/

/-- C4: for every coalition `C` in the combination space, the complement
derived for `C` is the ordered sequence of the players in
(Player Set minus `C`) listed in the canonical player-set order (a
subsequence of the canonical order whose member set is the set
difference); in particular the complement of the empty coalition is the
full player set in canonical order, and the complement of the full player
set is the empty sequence. -/
theorem make_complement_space_correct (elements : List ℕ)
    (combination_space : List (Finset ℕ)) :
    make_complement_space combination_space elements =
        combination_space.map (fun C => complement elements C) ∧
      (∀ C ∈ combination_space,
        (complement elements C).toFinset = elements.toFinset \ C ∧
          (complement elements C).Sublist elements) ∧
      complement elements ∅ = elements ∧
      complement elements elements.toFinset = [] :=
  ⟨rfl,
   fun C _ => ⟨complement_toFinset elements C, List.filter_sublist _⟩,
   complement_empty elements, complement_full elements⟩

/-- Witness for C4 at the player set `[0, 1, 2]` and the coalition
`[{0}]` singleton combination space. -/
theorem make_complement_space_correct_witness :
    (complement [0, 1, 2] {0}).toFinset = List.toFinset [0, 1, 2] \ {0} ∧
      complement [0, 1, 2] ∅ = [0, 1, 2] ∧
      complement [0, 1, 2] (List.toFinset [0, 1, 2]) = [] :=
  ⟨((make_complement_space_correct [0, 1, 2] [{0}]).2.1 {0}
      (by decide)).1,
   (make_complement_space_correct [0, 1, 2] [{0}]).2.2.1,
   (make_complement_space_correct [0, 1, 2] [{0}]).2.2.2⟩

/-- C5: the complement derivation is injective on the combination space:
two distinct coalitions drawn from the same player set have distinct
complements, so the coalition-to-complement mapping is a bijection
between the combination space and the complement space (the complement
space list repeats no entry). -/
theorem complement_injective_on_space (elements : List ℕ)
    (sample : List (List ℕ)) (hs : ∀ p ∈ sample, p.Perm elements) :
    (∀ C1 ∈ make_combination_space sample,
      ∀ C2 ∈ make_combination_space sample,
        C1 ≠ C2 → complement elements C1 ≠ complement elements C2) ∧
      (make_complement_space (make_combination_space sample)
        elements).Nodup := by
  have hsub := make_combination_space_subset hs
  constructor
  · intro C1 h1 C2 h2 hne heq
    exact hne (complement_inj_on (hsub C1 h1) (hsub C2 h2) heq)
  · exact List.Nodup.map_on
      (fun C1 h1 C2 h2 heq =>
        complement_inj_on (hsub C1 h1) (hsub C2 h2) heq)
      (make_combination_space_nodup sample)

/-- Witness for C5 at the player set `[0, 1]` and the two-permutation
sample `[[0, 1], [1, 0]]`. -/
theorem complement_injective_on_space_witness :
    complement [0, 1] {0} ≠ complement [0, 1] {1} ∧
      (make_complement_space
        (make_combination_space [[0, 1], [1, 0]]) [0, 1]).Nodup :=
  ⟨(complement_injective_on_space [0, 1] [[0, 1], [1, 0]]
      (by decide)).1 {0} (by decide) {1} (by decide) (by decide),
   (complement_injective_on_space [0, 1] [[0, 1], [1, 0]]
      (by decide)).2⟩

/-- C8: if the player set is empty, the requested sample size is less
than 1, or the player set contains duplicate identities, the sampler and
the whole run fail with an `InvalidInput` error and no result is
produced. -/
theorem invalid_input_rejected (mode : Mode) (n : ℕ) (elements : List ℕ)
    (f : List ℕ → ℚ) (seed : ℕ)
    (h : elements = [] ∨ n < 1 ∨ ¬ elements.Nodup) :
    make_permutation_space n elements seed =
        Except.error MSAError.InvalidInput ∧
      interface mode n elements f seed =
        Except.error MSAError.InvalidInput := by
  have hmps : make_permutation_space n elements seed =
      Except.error MSAError.InvalidInput := by
    unfold make_permutation_space
    exact if_pos h
  refine ⟨hmps, ?_⟩
  unfold interface
  rw [hmps]

/-- Witness for C8 on the empty player set and on a duplicated player
set. -/
theorem invalid_input_rejected_witness :
    interface Mode.sequential 5 [] (fun _ => 0) 1 =
        Except.error MSAError.InvalidInput ∧
      interface Mode.sequential 5 [3, 3] (fun _ => 0) 1 =
        Except.error MSAError.InvalidInput :=
  ⟨(invalid_input_rejected Mode.sequential 5 [] (fun _ => 0) 1
      (Or.inl rfl)).2,
   (invalid_input_rejected Mode.sequential 5 [3, 3] (fun _ => 0) 1
      (Or.inr (Or.inr (by decide)))).2⟩

/-- C1: for a permutation sample over a player set of size `N`, the
combination space contains every prefix coalition (including the empty
and full prefixes) of every sampled permutation, contains nothing that is
not a prefix of some sampled permutation, has size at most
`min (2 ^ N) ((N + 1) * K)` for sample size `K`, and has exactly `2 ^ N`
distinct coalitions once the sampled prefixes cover every subset. -/
theorem make_combination_space_correct (elements : List ℕ)
    (hnd : elements.Nodup) (sample : List (List ℕ))
    (hs : ∀ p ∈ sample, p.Perm elements) :
    (∀ p ∈ sample, ∀ i ≤ p.length,
        (p.take i).toFinset ∈ make_combination_space sample) ∧
      (∀ C ∈ make_combination_space sample,
        ∃ p ∈ sample, ∃ i, C = (p.take i).toFinset) ∧
      (make_combination_space sample).length ≤
        min (2 ^ elements.length)
          ((elements.length + 1) * sample.length) ∧
      ((∀ S ⊆ elements.toFinset, S ∈ make_combination_space sample) →
        (make_combination_space sample).length = 2 ^ elements.length) := by
  have hsub := make_combination_space_subset hs
  have hcardN : elements.toFinset.card = elements.length :=
    List.toFinset_card_of_nodup hnd
  have hlen : (make_combination_space sample).length =
      (make_combination_space sample).toFinset.card :=
    (List.toFinset_card_of_nodup (make_combination_space_nodup sample)).symm
  have hpow : (make_combination_space sample).toFinset ⊆
      elements.toFinset.powerset := by
    intro C hC
    rw [Finset.mem_powerset]
    exact hsub C (List.mem_toFinset.mp hC)
  refine ⟨?_, ?_, ?_, ?_⟩
  · intro p hp i hi
    exact mem_make_combination_space.mpr ⟨p, hp, i, hi, rfl⟩
  · intro C hC
    obtain ⟨p, hp, i, _, hC2⟩ := mem_make_combination_space.mp hC
    exact ⟨p, hp, i, hC2⟩
  · apply le_min
    · rw [hlen]
      calc (make_combination_space sample).toFinset.card
          ≤ elements.toFinset.powerset.card := Finset.card_le_card hpow
        _ = 2 ^ elements.length := by
            rw [Finset.card_powerset, hcardN]
    · calc (make_combination_space sample).length
          ≤ (sample.flatMap prefixCoalitions).length :=
            (List.dedup_sublist _).length_le
        _ = (sample.map (List.length ∘ prefixCoalitions)).sum :=
            List.length_flatMap _ _
        _ = (sample.map (fun _ => elements.length + 1)).sum := by
            apply congrArg
            apply List.map_congr_left
            intro p hp
            simp [prefixCoalitions, List.length_map, (hs p hp).length_eq]
        _ = sample.length * (elements.length + 1) := by
            rw [List.map_const', List.sum_const_nat]
        _ = (elements.length + 1) * sample.length := Nat.mul_comm _ _
  · intro hcov
    have hpow2 : elements.toFinset.powerset ⊆
        (make_combination_space sample).toFinset := by
      intro S hS
      exact List.mem_toFinset.mpr (hcov S (Finset.mem_powerset.mp hS))
    rw [hlen, Finset.Subset.antisymm hpow hpow2, Finset.card_powerset,
      hcardN]

/-- Witness for C1 at the player set `[0, 1]` and the sample
`[[0, 1], [1, 0]]`, whose prefixes cover all four subsets. -/
theorem make_combination_space_correct_witness :
    (make_combination_space [[0, 1], [1, 0]]).length ≤
        min (2 ^ 2) ((2 + 1) * 2) ∧
      ((∀ S ⊆ List.toFinset [0, 1],
          S ∈ make_combination_space [[0, 1], [1, 0]]) →
        (make_combination_space [[0, 1], [1, 0]]).length = 2 ^ 2) :=
  ⟨(make_combination_space_correct [0, 1] (by decide) [[0, 1], [1, 0]]
      (by decide)).2.2.1,
   (make_combination_space_correct [0, 1] (by decide) [[0, 1], [1, 0]]
      (by decide)).2.2.2⟩

/-- C3: the objective function is invoked exactly once per distinct
coalition of the combination space — the invocation count equals the
number of distinct prefix coalitions of the sample, however many
permutations share a prefix — and the contribution table has exactly one
entry per coalition of the combination space, each populated with the
objective value of that coalition's complement. -/
theorem take_contributions_once_per_coalition (elements : List ℕ)
    (sample : List (List ℕ)) (f : List ℕ → ℚ) :
    (take_contributions (make_combination_space sample)
        (make_complement_space (make_combination_space sample) elements)
        f).2.2 = (sample.flatMap prefixCoalitions).toFinset.card ∧
      (take_contributions (make_combination_space sample)
        (make_complement_space (make_combination_space sample) elements)
        f).1.map Prod.fst = make_combination_space sample ∧
      ∀ C ∈ make_combination_space sample,
        dictGet C (take_contributions (make_combination_space sample)
          (make_complement_space (make_combination_space sample) elements)
          f).1 = some (f (complement elements C)) := by
  have hkeys := make_combination_space_keys elements sample f
  refine ⟨?_, hkeys, ?_⟩
  · rw [show make_complement_space (make_combination_space sample)
        elements = (make_combination_space sample).map
          (fun C => complement elements C) from rfl,
      take_contributions_eq]
    rw [show (make_combination_space sample).length =
        (make_combination_space sample).toFinset.card from
        (List.toFinset_card_of_nodup
          (make_combination_space_nodup sample)).symm]
    rw [show (make_combination_space sample).toFinset =
        (sample.flatMap prefixCoalitions).toFinset from
        toFinset_dedup_list _]
  · intro C hC
    apply dictGet_eq_some_of_mem
    · rw [hkeys]
      exact make_combination_space_nodup sample
    · rw [show make_complement_space (make_combination_space sample)
          elements = (make_combination_space sample).map
            (fun C => complement elements C) from rfl,
        take_contributions_eq]
      exact List.mem_map_of_mem _ hC

/-- Witness for C3: on the sample `[[0, 1], [1, 0]]` the objective is
called exactly four times (once per distinct coalition) even though the
two permutations share the empty and full prefixes. -/
theorem take_contributions_once_per_coalition_witness :
    (take_contributions (make_combination_space [[0, 1], [1, 0]])
        (make_complement_space (make_combination_space [[0, 1], [1, 0]])
          [0, 1]) (fun _ => 5)).2.2 =
      (([[0, 1], [1, 0]] : List (List ℕ)).flatMap
        prefixCoalitions).toFinset.card ∧
      dictGet {0} (take_contributions
        (make_combination_space [[0, 1], [1, 0]])
        (make_complement_space (make_combination_space [[0, 1], [1, 0]])
          [0, 1]) (fun _ => 5)).1 = some 5 :=
  ⟨(take_contributions_once_per_coalition [0, 1] [[0, 1], [1, 0]]
      (fun _ => 5)).1,
   (take_contributions_once_per_coalition [0, 1] [[0, 1], [1, 0]]
      (fun _ => 5)).2.2 {0} (by decide)⟩

/-- C9: the contributions mapping and the lesion-effects mapping hold the
same values addressed two ways: for every coalition `C` of the
combination space, the contribution recorded for `C` equals the
lesion-effect recorded for `complement C` (both being the objective value
of `C`'s complement). -/
theorem contributions_eq_lesion_effects (elements : List ℕ)
    (sample : List (List ℕ)) (hs : ∀ p ∈ sample, p.Perm elements)
    (f : List ℕ → ℚ) :
    ∀ C ∈ make_combination_space sample,
      dictGet C (take_contributions (make_combination_space sample)
          (make_complement_space (make_combination_space sample) elements)
          f).1 =
        dictGet (complement elements C)
          (take_contributions (make_combination_space sample)
            (make_complement_space (make_combination_space sample)
              elements) f).2.1 ∧
      dictGet C (take_contributions (make_combination_space sample)
          (make_complement_space (make_combination_space sample) elements)
          f).1 = some (f (complement elements C)) := by
  intro C hC
  have hsub := make_combination_space_subset hs
  have hcontrib : dictGet C (take_contributions
      (make_combination_space sample)
      (make_complement_space (make_combination_space sample) elements)
      f).1 = some (f (complement elements C)) := by
    apply dictGet_eq_some_of_mem
    · rw [make_combination_space_keys]
      exact make_combination_space_nodup sample
    · rw [show make_complement_space (make_combination_space sample)
          elements = (make_combination_space sample).map
            (fun C => complement elements C) from rfl,
        take_contributions_eq]
      exact List.mem_map_of_mem _ hC
  have hlesion : dictGet (complement elements C) (take_contributions
      (make_combination_space sample)
      (make_complement_space (make_combination_space sample) elements)
      f).2.1 = some (f (complement elements C)) := by
    rw [show make_complement_space (make_combination_space sample)
        elements = (make_combination_space sample).map
          (fun C => complement elements C) from rfl,
      take_contributions_eq]
    apply dictGet_eq_some_of_mem
    · rw [List.map_map]
      rw [show (Prod.fst ∘ fun C => (complement elements C,
          f (complement elements C))) =
          (fun C => complement elements C) from rfl]
      exact List.Nodup.map_on
        (fun C1 h1 C2 h2 heq =>
          complement_inj_on (hsub C1 h1) (hsub C2 h2) heq)
        (make_combination_space_nodup sample)
    · exact List.mem_map_of_mem _ hC
  exact ⟨hcontrib.trans hlesion.symm, hcontrib⟩

/-- Witness for C9 at the coalition `{0}` of the sample `[[0, 1]]`: its
contribution and the lesion effect of its complement `[1]` agree. -/
theorem contributions_eq_lesion_effects_witness :
    dictGet {0} (take_contributions (make_combination_space [[0, 1]])
        (make_complement_space (make_combination_space [[0, 1]]) [0, 1])
        (fun l => (l.length : ℚ))).1 =
      dictGet (complement [0, 1] {0})
        (take_contributions (make_combination_space [[0, 1]])
          (make_complement_space (make_combination_space [[0, 1]]) [0, 1])
          (fun l => (l.length : ℚ))).2.1 :=
  ((contributions_eq_lesion_effects [0, 1] [[0, 1]] (by decide)
      (fun l => (l.length : ℚ))) {0} (by decide)).1

/-- C2: the Shapley-table row of a permutation `p` records, for the
player at each position `i`, exactly
`ContributionTable[prefix of length i+1] - ContributionTable[prefix of
length i]`, and every player's Shapley value estimate is the arithmetic
mean of that player's column over the `K` permutation rows — the
denominator is exactly the sample size `K`. -/
theorem make_shapley_values_correct (elements : List ℕ)
    (hnd : elements.Nodup) (contributions : List (Finset ℕ × ℚ))
    (sample : List (List ℕ)) (hs : ∀ p ∈ sample, p.Perm elements) :
    (∀ p ∈ sample, ∀ i, (h : i < p.length) →
        dictGet (p.get ⟨i, h⟩)
          (shapleyScan (tblOf contributions) ∅ p) =
          some (tblOf contributions ((p.take (i + 1)).toFinset) -
            tblOf contributions ((p.take i).toFinset))) ∧
      ∀ x ∈ elements,
        shapleyValue x (make_shapley_values contributions sample) =
          ((make_shapley_values contributions sample).map
            (fun row => (dictGet x row).getD 0)).sum /
            (sample.length : ℚ) := by
  constructor
  · intro p hp i h
    have hpnd : p.Nodup := (hs p hp).nodup_iff.mpr hnd
    have := shapleyScan_dictGet (tblOf contributions) p ∅ hpnd i h
    simpa using this
  · intro x hx
    rw [shapleyValue, shapleyColumn_eq_map contributions x hnd hx sample hs]
    rw [List.length_map,
      show (make_shapley_values contributions sample).length =
        sample.length from by rw [make_shapley_values, List.length_map]]

/-- Witness for C2 at the sample `[[0, 1]]` and a concrete contribution
table. -/
theorem make_shapley_values_correct_witness :
    dictGet (([0, 1] : List ℕ).get ⟨0, by decide⟩)
        (shapleyScan
          (tblOf [({0}, 3), (∅, 1), ({0, 1}, 7)]) ∅ [0, 1]) =
      some (tblOf [({0}, 3), (∅, 1), ({0, 1}, 7)]
          ((([0, 1] : List ℕ).take 1).toFinset) -
        tblOf [({0}, 3), (∅, 1), ({0, 1}, 7)]
          ((([0, 1] : List ℕ).take 0).toFinset)) ∧
      shapleyValue 0
          (make_shapley_values [({0}, 3), (∅, 1), ({0, 1}, 7)] [[0, 1]]) =
        ((make_shapley_values [({0}, 3), (∅, 1), ({0, 1}, 7)]
            [[0, 1]]).map (fun row => (dictGet 0 row).getD 0)).sum /
          (([[0, 1]] : List (List ℕ)).length : ℚ) :=
  ⟨(make_shapley_values_correct [0, 1] (by decide)
      [({0}, 3), (∅, 1), ({0, 1}, 7)] [[0, 1]] (by decide)).1
      [0, 1] (by decide) 0 (by decide),
   (make_shapley_values_correct [0, 1] (by decide)
      [({0}, 3), (∅, 1), ({0, 1}, 7)] [[0, 1]] (by decide)).2
      0 (by decide)⟩

/-- C6: for a constant objective function, every player's Shapley value
estimate is exactly 0, for every (valid) player set, every sample size
`K ≥ 1`, and every seed. -/
theorem constant_objective_all_zero (c : ℚ) (n : ℕ) (hn : 1 ≤ n)
    (elements : List ℕ) (hne : elements ≠ []) (hnd : elements.Nodup)
    (seed : ℕ) :
    interface Mode.sequential n elements (fun _ => c) seed =
        Except.ok (pipelineResult Mode.sequential elements
          (permSampleAux n seed elements) (fun _ => c)) ∧
      (pipelineResult Mode.sequential elements
          (permSampleAux n seed elements) (fun _ => c)).shapley_values =
        elements.map (fun x => (x, 0)) := by
  refine ⟨interface_eq_ok Mode.sequential (fun _ => c)
    (make_permutation_space_ok hn hne hnd seed), ?_⟩
  rw [show (pipelineResult Mode.sequential elements
      (permSampleAux n seed elements) (fun _ => c)).shapley_values =
      elements.map (fun x => (x, shapleyValue x
        (make_shapley_values (pipelineTables Mode.sequential elements
          (permSampleAux n seed elements) (fun _ => c)).1
          (permSampleAux n seed elements)))) from rfl]
  apply List.map_congr_left
  intro x _
  rw [shapleyValue_eq_zero
    (pipeline_marginals_zero c elements (permSampleAux n seed elements))]

/-- Witness for C6 with the constant objective 42 on three players. -/
theorem constant_objective_all_zero_witness :
    interface Mode.sequential 1 [0, 1, 2] (fun _ => 42) 0 =
        Except.ok (pipelineResult Mode.sequential [0, 1, 2]
          (permSampleAux 1 0 [0, 1, 2]) (fun _ => 42)) ∧
      (pipelineResult Mode.sequential [0, 1, 2]
          (permSampleAux 1 0 [0, 1, 2]) (fun _ => 42)).shapley_values =
        ([0, 1, 2] : List ℕ).map (fun x => (x, 0)) :=
  constant_objective_all_zero 42 1 (by decide) [0, 1, 2] (by decide)
    (by decide) 0

/-- C7: with identical players, sample size and seed, the run consumes
the same permutation sample in both execution modes, and for every pooled
dispatch order (any permutation of the combination space's work list) the
pooled run produces the same contribution-table key set, the same
contribution lookups, the same Shapley table and the same Shapley value
estimates as the sequential run: the seed influences only the sampler,
never the dispatch order. -/
theorem interface_mode_independent (n seed : ℕ) (elements : List ℕ)
    (f : List ℕ → ℚ) (sample : List (List ℕ))
    (hok : make_permutation_space n elements seed = Except.ok sample)
    (dispatch : List (Finset ℕ))
    (hdisp : dispatch.Perm (make_combination_space sample)) :
    interface Mode.sequential n elements f seed =
        Except.ok (pipelineResult Mode.sequential elements sample f) ∧
      interface (Mode.pooled dispatch) n elements f seed =
        Except.ok (pipelineResult (Mode.pooled dispatch) elements
          sample f) ∧
      ((pipelineResult (Mode.pooled dispatch) elements sample
          f).contributions.map Prod.fst).toFinset =
        ((pipelineResult Mode.sequential elements sample
          f).contributions.map Prod.fst).toFinset ∧
      (∀ C, dictGet C (pipelineResult (Mode.pooled dispatch) elements
          sample f).contributions =
        dictGet C (pipelineResult Mode.sequential elements sample
          f).contributions) ∧
      (pipelineResult (Mode.pooled dispatch) elements sample
          f).shapley_table =
        (pipelineResult Mode.sequential elements sample f).shapley_table ∧
      (pipelineResult (Mode.pooled dispatch) elements sample
          f).shapley_values =
        (pipelineResult Mode.sequential elements sample f).shapley_values
    := by
  have hseq : (pipelineTables Mode.sequential elements sample f).1 =
      (make_combination_space sample).map
        (fun C => (C, f (complement elements C))) := by
    rw [show (pipelineTables Mode.sequential elements sample f).1 =
        (take_contributions (make_combination_space sample)
          ((make_combination_space sample).map
            (fun C => complement elements C)) f).1 from rfl,
      take_contributions_eq]
  have hpool : (pipelineTables (Mode.pooled dispatch) elements sample
      f).1 = dispatch.map (fun C => (C, f (complement elements C))) := rfl
  have hperm : ((pipelineTables (Mode.pooled dispatch) elements sample
      f).1).Perm ((pipelineTables Mode.sequential elements sample f).1) :=
    by
    rw [hseq, hpool]
    exact hdisp.map _
  have hseqkeys : ((pipelineTables Mode.sequential elements sample
      f).1.map Prod.fst).Nodup := by
    rw [hseq, List.map_map,
      show (Prod.fst ∘ fun C => (C, f (complement elements C))) = id
        from rfl,
      List.map_id]
    exact make_combination_space_nodup sample
  have hpoolkeys : ((pipelineTables (Mode.pooled dispatch) elements
      sample f).1.map Prod.fst).Nodup :=
    (hperm.map Prod.fst).nodup_iff.mpr hseqkeys
  have hdict : ∀ C, dictGet C (pipelineTables (Mode.pooled dispatch)
      elements sample f).1 =
      dictGet C (pipelineTables Mode.sequential elements sample f).1 :=
    fun C => dictGet_congr_perm hperm hpoolkeys C
  have htblOf : tblOf (pipelineTables (Mode.pooled dispatch) elements
      sample f).1 = tblOf (pipelineTables Mode.sequential elements
      sample f).1 := by
    funext C
    rw [tblOf, tblOf, hdict C]
  have hstable : make_shapley_values (pipelineTables
      (Mode.pooled dispatch) elements sample f).1 sample =
      make_shapley_values (pipelineTables Mode.sequential elements
        sample f).1 sample := by
    rw [make_shapley_values, make_shapley_values, htblOf]
  refine ⟨interface_eq_ok Mode.sequential f hok,
    interface_eq_ok (Mode.pooled dispatch) f hok, ?_, hdict, hstable, ?_⟩
  · exact List.toFinset_eq_of_perm _ _ (hperm.map Prod.fst)
  · rw [show (pipelineResult (Mode.pooled dispatch) elements sample
        f).shapley_values = elements.map (fun x => (x, shapleyValue x
          (make_shapley_values (pipelineTables (Mode.pooled dispatch)
            elements sample f).1 sample))) from rfl, hstable]
    rfl

/-- Witness for C7: a pooled run dispatching the combination space in
reversed order yields the same Shapley table as the sequential run. -/
theorem interface_mode_independent_witness :
    (pipelineResult (Mode.pooled
        ((make_combination_space (permSampleAux 1 3 [0, 1])).reverse))
        [0, 1] (permSampleAux 1 3 [0, 1])
        (fun l => (l.length : ℚ))).shapley_table =
      (pipelineResult Mode.sequential [0, 1] (permSampleAux 1 3 [0, 1])
        (fun l => (l.length : ℚ))).shapley_table :=
  (interface_mode_independent 1 3 [0, 1] (fun l => (l.length : ℚ))
      (permSampleAux 1 3 [0, 1]) rfl
      ((make_combination_space (permSampleAux 1 3 [0, 1])).reverse)
      (List.reverse_perm _)).2.2.2.2.1

/-- C10: Shapley value estimates are not guaranteed nonnegative: the
`mutual_inhibition` objective of the example notebook returns only the
nonnegative values 0 and 100, yet on the player set `[0, 1]` (regions
`a` and `b`) a run records a strictly negative Shapley value estimate
for some player. -/
theorem mutual_inhibition_negative_shapley :
    (∀ l, 0 ≤ mutual_inhibition l) ∧
      interface Mode.sequential 1 [0, 1] mutual_inhibition 7 =
        Except.ok (pipelineResult Mode.sequential [0, 1]
          (permSampleAux 1 7 [0, 1]) mutual_inhibition) ∧
      ∃ q ∈ (pipelineResult Mode.sequential [0, 1]
          (permSampleAux 1 7 [0, 1]) mutual_inhibition).shapley_values,
        q.2 < 0 := by
  refine ⟨?_, interface_eq_ok Mode.sequential mutual_inhibition rfl, ?_⟩
  · intro l
    rw [mutual_inhibition]
    split_ifs <;> norm_num
  · refine ⟨(0, shapleyValue 0 (make_shapley_values (pipelineTables
      Mode.sequential [0, 1] (permSampleAux 1 7 [0, 1])
      mutual_inhibition).1 (permSampleAux 1 7 [0, 1]))),
      List.mem_map_of_mem _ (by decide), ?_⟩
    rw [show permSampleAux 1 7 [0, 1] = [[0, 1]] from rfl]
    norm_num [shapleyValue, shapleyColumn, make_shapley_values,
      shapleyScan, tblOf, dictGet, pipelineTables, runContributions,
      take_contributions, make_combination_space, make_complement_space,
      prefixCoalitions, complement, mutual_inhibition]
    simp +decide

end MSA
